import Mathlib

/-!
Verification of the post-processing kernels of the RK3588 drone perception
pipeline (`base/post_process/post_processes.py`), over a shallow embedding:
numpy float arrays become lists of rationals (reals where the code uses
`exp`), the grid tensors become nested lists, and the external collaborators
(drawing, dataset lookup, pose estimation) become function parameters.
-/

namespace DroneRK

/-! Basic list helpers mirroring `np.max` / `np.argmax` (axis = -1). -/

/-- Maximum of a list of rationals; `np.max` on the class-probability axis.
`np.max` on an empty axis raises, here an empty list defaults to `0`. -/
def maxD : List ℚ → ℚ
  | [] => 0
  | x :: xs => xs.foldl max x

/-- First index attaining the maximum, mirroring `np.argmax` (ties broken by
the first occurrence). -/
def argmaxD : List ℚ → ℕ
  | [] => 0
  | x :: xs => if maxD (x :: xs) ≤ x then 0 else argmaxD xs + 1

/-! YOLOv5 decode (`sigmoid`, `process`, `xywh2xyxy`, `filter_boxes`). -/

/-- Embedding of `sigmoid` from `post_processes.py`: the code body is
`return x` — the logistic expression `1 / (1 + np.exp(-x))` is commented
out — so the function is the identity. -/
def sigmoid (x : ℚ) : ℚ := x

/-- One raw anchor entry of a detection tensor: the 4 box regressors, the
objectness logit, and the per-class scores (`input[..., :2]`,
`input[..., 2:4]`, `input[..., 4]`, `input[..., 5:]`). -/
structure RawDet where
  x : ℚ
  y : ℚ
  w : ℚ
  h : ℚ
  conf : ℚ
  probs : List ℚ
deriving DecidableEq

instance : Inhabited RawDet := ⟨⟨0, 0, 0, 0, 0, []⟩⟩

/-- A box in center/size form `[cx, cy, w, h]`, as produced by `process`. -/
structure CBox where
  cx : ℚ
  cy : ℚ
  w : ℚ
  h : ℚ
deriving DecidableEq

instance : Inhabited CBox := ⟨⟨0, 0, 0, 0⟩⟩

/-- A box in corner form `[x1, y1, x2, y2]`, as produced by `xywh2xyxy`. -/
structure Box where
  x1 : ℚ
  y1 : ℚ
  x2 : ℚ
  y2 : ℚ
deriving DecidableEq

instance : Inhabited Box := ⟨⟨0, 0, 0, 0⟩⟩

/-- Decode of one anchor entry of grid cell `(r, c)` in `process`:
`box_xy = (sigmoid(raw)*2 - 0.5 + grid)*int(net_size/grid)` (the scale is
Python `int(...)`, i.e. truncated division) and
`box_wh = (sigmoid(raw)*2)^2 * anchor`; the objectness and the class scores
also pass through `sigmoid`. -/
def processCell (netSize g : ℕ) (anchor : ℚ × ℚ) (r c : ℕ) (raw : RawDet) :
    CBox × ℚ × List ℚ :=
  let scale : ℚ := ((netSize / g : ℕ) : ℚ)
  (⟨(sigmoid raw.x * 2 - 1/2 + (c : ℚ)) * scale,
    (sigmoid raw.y * 2 - 1/2 + (r : ℚ)) * scale,
    (sigmoid raw.w * 2) ^ 2 * anchor.1,
    (sigmoid raw.h * 2) ^ 2 * anchor.2⟩,
   sigmoid raw.conf,
   raw.probs.map sigmoid)

/-- One grid row of `process`: the cells of the row at row index `r`,
starting at column index `c`; the anchor axis of each cell is paired with
the scale's three anchors. -/
def processRow (netSize g : ℕ) (anchors : List (ℚ × ℚ)) (r : ℕ) :
    ℕ → List (List RawDet) → List (List (CBox × ℚ × List ℚ))
  | _, [] => []
  | c, cell :: cells =>
    (cell.zip anchors).map (fun ra => processCell netSize g ra.2 r c ra.1) ::
      processRow netSize g anchors r (c + 1) cells

/-- The rows of `process` starting at row index `r`. -/
def processFrom (netSize g : ℕ) (anchors : List (ℚ × ℚ)) :
    ℕ → List (List (List RawDet)) → List (List (List (CBox × ℚ × List ℚ)))
  | _, [] => []
  | r, row :: rows =>
    processRow netSize g anchors r 0 row ::
      processFrom netSize g anchors (r + 1) rows

/-- Embedding of `process`: the input tensor is indexed `[row][col][anchor]`
(its numpy shape `(grid_h, grid_w, 3, 5+C)`) and the output keeps the grid
shape, exactly as the numpy version broadcasts the `col`/`row` offsets and
the anchor pairs. The numpy grid construction assumes a square grid
(`grid_h = grid_w`), which is the only shape the code handles. -/
def process (netSize g : ℕ) (anchors : List (ℚ × ℚ))
    (input : List (List (List RawDet))) :
    List (List (List (CBox × ℚ × List ℚ))) :=
  processFrom netSize g anchors 0 input

/-- Embedding of `xywh2xyxy`: center/size to corner form. -/
def xywh2xyxy (b : CBox) : Box :=
  ⟨b.cx - b.w / 2, b.cy - b.h / 2, b.cx + b.w / 2, b.cy + b.h / 2⟩

/-- Embedding of `filter_boxes` on the flattened entries: keep entries with
`box_confidence >= obj_thresh`, then among those the ones whose maximum
class probability is also `>= obj_thresh`; each survivor yields
`(box, argmax_class, max_class_prob * box_confidence)`. -/
def filter_boxes (t : ℚ) (entries : List (CBox × ℚ × List ℚ)) :
    List (CBox × ℕ × ℚ) :=
  (((entries.filter (fun e => decide (t ≤ e.2.1))).filter
      (fun e => decide (t ≤ maxD e.2.2))).map
    (fun e => (e.1, argmaxD e.2.2, maxD e.2.2 * e.2.1)))

/-! Non-maximum suppression (`nms_boxes`). -/

/-- The `0.00001` smoothing constant added to the intersection extents in
`nms_boxes`. -/
def eps : ℚ := 1 / 100000

/-- Area of a corner-form box, `w * h` with `w = x2 - x1`, `h = y2 - y1`. -/
def areaB (b : Box) : ℚ := (b.x2 - b.x1) * (b.y2 - b.y1)

/-- Intersection area as computed in `nms_boxes`:
`max(0, xx2 - xx1 + 0.00001) * max(0, yy2 - yy1 + 0.00001)`. -/
def interB (a b : Box) : ℚ :=
  max 0 (min a.x2 b.x2 - max a.x1 b.x1 + eps) *
    max 0 (min a.y2 b.y2 - max a.y1 b.y1 + eps)

/-- The overlap ratio `ovr = inter / (areas[i] + areas[j] - inter)` that
`nms_boxes` compares against `nms_thresh` (the code's IoU computation). -/
def ovr (a b : Box) : ℚ := interB a b / (areaB a + areaB b - interB a b)

/-- Modelled from the spec: the glossary's IoU — the exact overlap ratio
between two boxes' areas, with no `+0.00001` padding. Stated only to compare
the claim's wording against the `ovr` quantity `nms_boxes` actually
computes. -/
def iouExact (a b : Box) : ℚ :=
  max 0 (min a.x2 b.x2 - max a.x1 b.x1) *
      max 0 (min a.y2 b.y2 - max a.y1 b.y1) /
    (areaB a + areaB b - max 0 (min a.x2 b.x2 - max a.x1 b.x1) *
      max 0 (min a.y2 b.y2 - max a.y1 b.y1))

/-- Descending insertion of index `i` into an index list already built, by
score; on ties the newly inserted (larger) index goes first, matching the
reversed stable ascending `argsort` of the code (`scores.argsort()[::-1]`);
the spec leaves the tie-break unspecified. -/
def insertDesc (ss : List ℚ) (i : ℕ) : List ℕ → List ℕ
  | [] => [i]
  | j :: rest =>
    if ss.getD j 0 ≤ ss.getD i 0 then i :: j :: rest
    else j :: insertDesc ss i rest

/-- Insertion of one index per remaining score, counting the index up. -/
def argsortAux (ss : List ℚ) : List ℕ → ℕ → List ℚ → List ℕ
  | acc, _, [] => acc
  | acc, i, _ :: rest => argsortAux ss (insertDesc ss i acc) (i + 1) rest

/-- Index sort by descending score, modelling `scores.argsort()[::-1]`. -/
def argsortDesc (ss : List ℚ) : List ℕ :=
  argsortAux ss [] 0 ss

/-- The `while order.size > 0` loop of `nms_boxes`: keep the head index and
drop every later index whose overlap with it exceeds `nms_thresh`. The
structural fuel only bounds the iteration count; since every iteration
removes at least the head of `order`, fuel equal to the initial length
already runs the loop to completion (the `0, _ :: _` branch is never
reached from `nms_boxes`). -/
def nmsLoop (bs : List Box) (t : ℚ) : ℕ → List ℕ → List ℕ
  | _, [] => []
  | 0, _ :: _ => []
  | n + 1, i :: rest =>
    i :: nmsLoop bs t n (rest.filter (fun j =>
      decide (ovr (bs.getD i default) (bs.getD j default) ≤ t)))

/-- Embedding of `nms_boxes`: the indices kept by greedy per-score-order
suppression. -/
def nms_boxes (bs : List Box) (ss : List ℚ) (t : ℚ) : List ℕ :=
  nmsLoop bs t (argsortDesc ss).length (argsortDesc ss)

/-! Full detection pipeline (`yolov5_post_process`). -/

/-- The fixed anchor table of `yolov5_post_process`. -/
def anchorsAll : List (ℚ × ℚ) :=
  [(10, 13), (16, 30), (33, 23), (30, 61), (62, 45), (59, 119), (116, 90),
   (156, 198), (373, 326)]

/-- The fixed per-scale anchor masks of `yolov5_post_process`. -/
def masksAll : List (List ℕ) := [[0, 1, 2], [3, 4, 5], [6, 7, 8]]

/-- Decode-and-filter of one scale: `process` on the scale's grid (with the
scale's anchors selected by its mask), the grid flattened row-major as by
`reshape(-1, …)`, then `filter_boxes`. -/
def filterScale (netSize : ℕ) (t : ℚ) (mask : List ℕ)
    (input : List (List (List RawDet))) : List (CBox × ℕ × ℚ) :=
  filter_boxes t
    ((process netSize input.length (mask.map (fun i => anchorsAll.getD i (0, 0)))
        input).flatten.flatten)

/-- The filtered entries of all scales concatenated, as after the
`np.concatenate` calls in `yolov5_post_process`. -/
def filteredAll (netSize : ℕ) (t : ℚ)
    (inputs : List (List (List (List RawDet)))) : List (CBox × ℕ × ℚ) :=
  ((inputs.zip masksAll).map (fun p => filterScale netSize t p.2 p.1)).flatten

/-- Numpy fancy indexing `l[inds]` with the type's default for
out-of-range positions (never hit by the pipeline's index sets). -/
def fancyIdx {α : Type _} [Inhabited α] (l : List α) (inds : List ℕ) :
    List α :=
  inds.map (fun i => l.getD i default)

/-- The positions holding class `cl`, modelling `np.where(classes == c)`. -/
def groupInds (classes : List ℕ) (cl : ℕ) : List ℕ :=
  (List.range classes.length).filter (fun i => decide (classes.getD i 0 = cl))

/-- The indices `nms_boxes` keeps within the class-`cl` group. -/
def groupKeep (boxes : List Box) (classes : List ℕ) (scores : List ℚ)
    (nmsT : ℚ) (cl : ℕ) : List ℕ :=
  nms_boxes (fancyIdx boxes (groupInds classes cl))
    (fancyIdx scores (groupInds classes cl)) nmsT

/-- One class group of `yolov5_post_process`: the class-`cl` rows of
boxes/classes/scores restricted to the survivors of `nms_boxes`. -/
def nmsGroup (boxes : List Box) (classes : List ℕ) (scores : List ℚ)
    (nmsT : ℚ) (cl : ℕ) : List Box × List ℕ × List ℚ :=
  (fancyIdx (fancyIdx boxes (groupInds classes cl))
      (groupKeep boxes classes scores nmsT cl),
   fancyIdx (fancyIdx classes (groupInds classes cl))
      (groupKeep boxes classes scores nmsT cl),
   fancyIdx (fancyIdx scores (groupInds classes cl))
      (groupKeep boxes classes scores nmsT cl))

/-- The concatenated corner-form boxes of all scales
(`boxes = xywh2xyxy(np.concatenate(boxes))`). -/
def boxesAll (netSize : ℕ) (t : ℚ)
    (inputs : List (List (List (List RawDet)))) : List Box :=
  (filteredAll netSize t inputs).map (fun e => xywh2xyxy e.1)

/-- The concatenated class ids of all scales. -/
def classesAll (netSize : ℕ) (t : ℚ)
    (inputs : List (List (List (List RawDet)))) : List ℕ :=
  (filteredAll netSize t inputs).map (fun e => e.2.1)

/-- The concatenated scores of all scales. -/
def scoresAll (netSize : ℕ) (t : ℚ)
    (inputs : List (List (List (List RawDet)))) : List ℚ :=
  (filteredAll netSize t inputs).map (fun e => e.2.2)

/-- The per-class groups produced by the `for c in set(classes)` loop
(`set(classes)` iterated in first-occurrence order). -/
def groupsAll (netSize : ℕ) (t nmsT : ℚ)
    (inputs : List (List (List (List RawDet)))) :
    List (List Box × List ℕ × List ℚ) :=
  (classesAll netSize t inputs).dedup.map
    (nmsGroup (boxesAll netSize t inputs) (classesAll netSize t inputs)
      (scoresAll netSize t inputs) nmsT)

/-- Embedding of `yolov5_post_process`: decode and filter each scale,
convert the concatenated boxes to corner form, run per-class non-maximum
suppression, and return `none` exactly where the code returns the
`None, None, None` triple. -/
def yolov5_post_process (netSize : ℕ) (t nmsT : ℚ)
    (inputs : List (List (List (List RawDet)))) :
    Option (List Box × List ℕ × List ℚ) :=
  if (groupsAll netSize t nmsT inputs).isEmpty then none
  else some (((groupsAll netSize t nmsT inputs).map (fun gr => gr.1)).flatten,
    ((groupsAll netSize t nmsT inputs).map (fun gr => gr.2.1)).flatten,
    ((groupsAll netSize t nmsT inputs).map (fun gr => gr.2.2)).flatten)

/-! The `while True:` scaffolding of the three entry points. -/

/-- Semantics of a `while True:` loop whose body either continues with a new
state or returns a value; `fuel` bounds the number of iterations observed,
and `none` means the loop did not return within `fuel` iterations. -/
def whileTrue {σ α : Type _} (body : σ → σ ⊕ α) : ℕ → σ → Option α
  | 0, _ => none
  | n + 1, s =>
    match body s with
    | Sum.inr a => some a
    | Sum.inl s2 => whileTrue body n s2

/-- The straight-line body of `post_yolov5` (its loop deleted): run the
decoder; when boxes came back, draw them on the frame and format the
detections, otherwise pass the frame on with `dets = None`. The mutating
collaborators `draw` and `format_dets` are function parameters returning
the annotated frame resp. the formatted detections. -/
def post_yolov5_straight {Frame Dets : Type}
    (draw : Frame → List Box → List ℚ → List ℕ → Frame)
    (format_dets : List Box → List ℕ → List ℚ → Dets)
    (netSize : ℕ) (t nmsT : ℚ) (inputs : List (List (List (List RawDet))))
    (frame : Frame) : Frame × Option Dets :=
  match yolov5_post_process netSize t nmsT inputs with
  | none => (frame, none)
  | some (b, c, s) => (draw frame b s c, some (format_dets b c s))

/-- Embedding of `post_yolov5` with its `while True:` loop: the body
unconditionally reaches `return`. -/
def post_yolov5 {Frame Dets : Type}
    (draw : Frame → List Box → List ℚ → List ℕ → Frame)
    (format_dets : List Box → List ℕ → List ℚ → Dets)
    (netSize : ℕ) (t nmsT : ℚ) (inputs : List (List (List (List RawDet))))
    (frame : Frame) (fuel : ℕ) : Option (Frame × Option Dets) :=
  whileTrue (fun _ => Sum.inr
    (post_yolov5_straight draw format_dets netSize t nmsT inputs frame))
    fuel ()

/-! Segmentation decode (`get_mask`, `post_unet`). -/

/-- The fixed RGB lookup table `select_class_rgb_values` of `get_mask`. -/
def select_class_rgb_values : List (List ℚ) := [[0, 0, 0], [255, 255, 255]]

/-- Embedding of `np.transpose(raw_mask, (1, 2, 0))`: the input is indexed
`[channel][row][col]`, the output `[row][col][channel]`; the spatial extent
is read off the first channel as numpy reads it off the shape. -/
def transposeCHW (raw : List (List (List ℚ))) : List (List (List ℚ)) :=
  (List.range (raw.headD []).length).map (fun y =>
    (List.range ((raw.headD []).headD []).length).map (fun x =>
      raw.map (fun ch => (ch.getD y []).getD x 0)))

/-- Embedding of `reverse_one_hot`: per-pixel `argmax` over the channel
axis. -/
def reverse_one_hot (image : List (List (List ℚ))) : List (List ℕ) :=
  image.map (fun row => row.map argmaxD)

/-- Embedding of `colour_code_segmentation`: per-pixel lookup of the class
index in the RGB table. -/
def colour_code_segmentation (image : List (List ℕ))
    (label_values : List (List ℚ)) : List (List (List ℚ)) :=
  image.map (fun row => row.map (fun i => label_values.getD i []))

/-- Embedding of `get_mask`: transpose, reverse one-hot, colour code (the
`astype(np.uint8)` is the identity on the table's exact 0/255 values). -/
def get_mask (raw_mask : List (List (List ℚ))) : List (List (List ℚ)) :=
  colour_code_segmentation (reverse_one_hot (transposeCHW raw_mask))
    select_class_rgb_values

/-- Embedding of `cv2.addWeighted(img1, a, img2, b, 0.0)` on images of equal
shape: the per-channel affine blend `a*u + b*v`. -/
def addWeighted (a : ℚ) (img1 : List (List (List ℚ))) (b : ℚ)
    (img2 : List (List (List ℚ))) : List (List (List ℚ)) :=
  List.zipWith (fun r1 r2 => List.zipWith (fun p1 p2 =>
    List.zipWith (fun u v => a * u + b * v) p1 p2) r1 r2) img1 img2

/-- The straight-line body of `post_unet` (its loop deleted): blend the
colour-coded mask onto the frame with `alpha = 0.7`, `beta = 1 - alpha`. -/
def post_unet_straight (outputs : List (List (List ℚ)))
    (frame : List (List (List ℚ))) : List (List (List ℚ)) :=
  addWeighted (7/10) frame (3/10) (get_mask outputs)

/-- Embedding of `post_unet` with its `while True:` loop. -/
def post_unet (outputs : List (List (List ℚ)))
    (frame : List (List (List ℚ))) (fuel : ℕ) :
    Option (List (List (List ℚ))) :=
  whileTrue (fun _ => Sum.inr (post_unet_straight outputs frame)) fuel ()

/-! Classification and retrieval decode (`resnet_post_process`,
`post_resnet`), over the reals since the code applies `np.exp`. -/

/-- Embedding of the softmax line
`output = np.exp(output) / sum(np.exp(output))`. -/
noncomputable def softmax (l : List ℝ) : List ℝ :=
  l.map (fun x => Real.exp x / (l.map Real.exp).sum)

/-- Descending insertion into an already sorted list of values, modelling
`sorted(output, reverse=True)`. -/
noncomputable def insertDescR (x : ℝ) : List ℝ → List ℝ
  | [] => [x]
  | y :: rest => if y ≤ x then x :: y :: rest else y :: insertDescR x rest

/-- Sort a list of reals in descending order by insertion. -/
noncomputable def sortDescR (l : List ℝ) : List ℝ :=
  l.foldr insertDescR []

/-- Python `int(...)` on a real: truncation toward zero. -/
noncomputable def truncInt (x : ℝ) : ℤ :=
  if 0 ≤ x then ⌊x⌋ else ⌈x⌉

/-- Embedding of `resnet_post_process`: softmax the logits, sort the
resulting values descending, take the first 10, and feed each value —
truncated to an integer by `int(cls_id)` — to the dataset collaborator
`get_crop_by_id` (a function parameter). -/
noncomputable def resnet_post_process {Img : Type} (get_crop_by_id : ℤ → Img)
    (result : List ℝ) : List Img :=
  ((sortDescR (softmax result)).take 10).map
    (fun v => get_crop_by_id (truncInt v))

/-- The straight-line body of `post_resnet` (its loop deleted): retrieve the
reference images, ask the pose/scale collaborator `hm` for `(scale, angle)`,
and annotate the frame via the `draw_position` collaborator. -/
noncomputable def post_resnet_straight {Frame Img : Type}
    (get_crop_by_id : ℤ → Img) (hm : Frame → List Img → ℝ × ℝ)
    (draw_position : Frame → ℝ × ℝ → Frame)
    (outputs : List ℝ) (frame : Frame) : Frame :=
  draw_position frame (hm frame (resnet_post_process get_crop_by_id outputs))

/-- Embedding of `post_resnet` with its `while True:` loop. -/
noncomputable def post_resnet {Frame Img : Type}
    (get_crop_by_id : ℤ → Img) (hm : Frame → List Img → ℝ × ℝ)
    (draw_position : Frame → ℝ × ℝ → Frame)
    (outputs : List ℝ) (frame : Frame) (fuel : ℕ) : Option Frame :=
  whileTrue (fun _ => Sum.inr
    (post_resnet_straight get_crop_by_id hm draw_position outputs frame))
    fuel ()

/-- The logistic function `1 / (1 + exp(-x))` that the specification's
decode formulas refer to as `sigmoid`; the code's `sigmoid` instead returns
its argument unchanged (the logistic expression is commented out). -/
noncomputable def logistic (x : ℝ) : ℝ := 1 / (1 + Real.exp (-x))

/-- Membership predicate: `raw` is one of the anchor entries of one of the
scale tensors handed to `yolov5_post_process`. -/
def rawInInputs (raw : RawDet)
    (inputs : List (List (List (List RawDet)))) : Prop :=
  ∃ grid ∈ inputs, ∃ row ∈ grid, ∃ cell ∈ row, raw ∈ cell

/-! Auxiliary lemmas about the sort and the suppression loop. -/

theorem insertDesc_perm (ss : List ℚ) (i : ℕ) (l : List ℕ) :
    (insertDesc ss i l).Perm (i :: l) := by
  induction l with
  | nil => simp [insertDesc]
  | cons j rest ih =>
    rw [insertDesc]
    split
    · exact List.Perm.refl _
    · exact (List.Perm.cons j ih).trans (List.Perm.swap i j rest)

theorem argsortAux_perm (ss : List ℚ) (l : List ℚ) :
    ∀ (acc : List ℕ) (i : ℕ),
      (argsortAux ss acc i l).Perm (List.range' i l.length ++ acc) := by
  induction l with
  | nil => intro acc i; simp [argsortAux]
  | cons x rest ih =>
    intro acc i
    rw [argsortAux]
    refine (ih (insertDesc ss i acc) (i + 1)).trans ?_
    rw [List.length_cons, List.range'_succ]
    refine ((List.Perm.append_left _ (insertDesc_perm ss i acc)).trans ?_)
    exact List.perm_middle.trans (List.Perm.refl _)

theorem argsortDesc_perm (ss : List ℚ) :
    (argsortDesc ss).Perm (List.range ss.length) := by
  have h := argsortAux_perm ss ss [] 0
  simpa [argsortDesc, List.range_eq_range'] using h

theorem nmsLoop_subset (bs : List Box) (t : ℚ) :
    ∀ (n : ℕ) (l : List ℕ), ∀ j ∈ nmsLoop bs t n l, j ∈ l := by
  intro n
  induction n with
  | zero =>
    intro l j hj
    cases l with
    | nil => simp [nmsLoop] at hj
    | cons i rest => simp [nmsLoop] at hj
  | succ n ih =>
    intro l j hj
    cases l with
    | nil => simp [nmsLoop] at hj
    | cons i rest =>
      rw [nmsLoop] at hj
      rcases List.mem_cons.mp hj with h | h
      · exact h ▸ List.mem_cons_self i rest
      · exact List.mem_cons_of_mem _ (List.mem_of_mem_filter (ih _ j h))

theorem nmsLoop_pairwise (bs : List Box) (t : ℚ) :
    ∀ (n : ℕ) (l : List ℕ), (nmsLoop bs t n l).Pairwise
      (fun i j => ovr (bs.getD i default) (bs.getD j default) ≤ t) := by
  intro n
  induction n with
  | zero => intro l; cases l <;> simp [nmsLoop]
  | succ n ih =>
    intro l
    cases l with
    | nil => simp [nmsLoop]
    | cons i rest =>
      rw [nmsLoop]
      refine List.Pairwise.cons ?_ (ih _)
      intro j hj
      have hj2 := nmsLoop_subset bs t n _ j hj
      simpa using List.of_mem_filter hj2

theorem nmsLoop_eq_self (bs : List Box) (t : ℚ) :
    ∀ (n : ℕ) (l : List ℕ), l.length ≤ n →
      l.Pairwise (fun i j => ovr (bs.getD i default) (bs.getD j default) ≤ t) →
      nmsLoop bs t n l = l := by
  intro n
  induction n with
  | zero =>
    intro l hl _
    cases l with
    | nil => simp [nmsLoop]
    | cons i rest => simp at hl
  | succ n ih =>
    intro l hl hp
    cases l with
    | nil => simp [nmsLoop]
    | cons i rest =>
      rw [List.pairwise_cons] at hp
      rw [nmsLoop]
      have hfilter : rest.filter (fun j =>
          decide (ovr (bs.getD i default) (bs.getD j default) ≤ t)) = rest := by
        apply List.filter_eq_self.mpr
        intro j hj
        exact decide_eq_true (hp.1 j hj)
      rw [hfilter, ih rest (by simp at hl; omega) hp.2]

theorem interB_comm (a b : Box) : interB a b = interB b a := by
  rw [interB, interB, min_comm a.x2, max_comm a.x1, min_comm a.y2,
    max_comm a.y1]

theorem ovr_comm (a b : Box) : ovr a b = ovr b a := by
  rw [ovr, ovr, interB_comm, add_comm (areaB a)]

theorem map_getD_range {α : Type _} (l : List α) (d : α) :
    (List.range l.length).map (fun i => l.getD i d) = l := by
  apply List.ext_getElem (by simp)
  intro i h1 h2
  simp only [List.getElem_map, List.getElem_range]
  exact List.getD_eq_getElem _ _ h2

theorem pairwise_getD_of_ne {R : ℕ → ℕ → Prop} (k : List ℕ)
    (hP : k.Pairwise R) (hsymm : ∀ i j, R i j → R j i)
    (p q : ℕ) (hp : p < k.length) (hq : q < k.length) (hne : p ≠ q) :
    R (k.getD p 0) (k.getD q 0) := by
  rw [List.getD_eq_getElem _ _ hp, List.getD_eq_getElem _ _ hq]
  rcases Nat.lt_or_ge p q with h | h
  · exact List.pairwise_iff_getElem.mp hP p q hp hq h
  · have h2 : q < p := lt_of_le_of_ne h (Ne.symm hne)
    exact hsymm _ _ (List.pairwise_iff_getElem.mp hP q p hq hp h2)

theorem nms_keep_all_aux (bs' : List Box) (ss' : List ℚ) (t : ℚ)
    (hpair : ∀ p q, p < bs'.length → q < bs'.length → p ≠ q →
      ovr (bs'.getD p default) (bs'.getD q default) ≤ t)
    (hlen : ss'.length = bs'.length) :
    ((nms_boxes bs' ss' t).map (fun p => bs'.getD p default)).Perm bs' := by
  have hperm : (argsortDesc ss').Perm (List.range bs'.length) := by
    rw [← hlen]; exact argsortDesc_perm ss'
  have hnodup : (argsortDesc ss').Nodup :=
    hperm.nodup_iff.mpr (List.nodup_range _)
  have hmem : ∀ p ∈ argsortDesc ss', p < bs'.length := fun p hp =>
    List.mem_range.mp (hperm.mem_iff.mp hp)
  have hR' : (argsortDesc ss').Pairwise
      (fun p q => ovr (bs'.getD p default) (bs'.getD q default) ≤ t) := by
    rw [List.pairwise_iff_getElem]
    intro a b ha hb hab
    refine hpair _ _ (hmem _ (List.getElem_mem _)) (hmem _ (List.getElem_mem _))
      ?_
    intro hcontra
    exact Nat.ne_of_lt hab (hnodup.getElem_inj_iff.mp hcontra)
  have hkeep : nms_boxes bs' ss' t = argsortDesc ss' :=
    nmsLoop_eq_self bs' t _ _ (le_refl _) hR'
  rw [hkeep]
  exact (hperm.map _).trans (by rw [map_getD_range])

/-! Claims C4 and C5. -/

/-- C4 (amended): for an input of exactly two boxes of one class whose
overlap ratio as `nms_boxes` computes it (`ovr`, with its `+0.00001`
padding of the intersection extents) exceeds `nms_thresh` and whose scores
differ, `nms_boxes` keeps exactly the higher-scoring box and removes the
other. -/
theorem nms_two_boxes_keeps_higher (b0 b1 : Box) (s0 s1 t : ℚ)
    (hs : s0 ≠ s1) (hiou : t < ovr b0 b1) :
    nms_boxes [b0, b1] [s0, s1] t = [if s1 < s0 then 0 else 1] := by
  have hnovr : ¬ (ovr b0 b1 ≤ t) := not_le.mpr hiou
  have hnovr2 : ¬ (ovr b1 b0 ≤ t) := by rwa [ovr_comm]
  rcases lt_or_gt_of_ne hs with h | h
  · have hcond : (s0 : ℚ) ≤ s1 := le_of_lt h
    have hnlt : ¬ (s1 < s0) := not_lt.mpr hcond
    simp [nms_boxes, argsortDesc, argsortAux, insertDesc, nmsLoop, hcond,
      hnovr2, hnlt]
  · have hcond : ¬ ((s0 : ℚ) ≤ s1) := not_le.mpr h
    simp [nms_boxes, argsortDesc, argsortAux, insertDesc, nmsLoop, hcond,
      hnovr, h]

/-- Witness for C4: the spec scenario — two boxes with overlap ratio 0.8,
`nms_thresh = 0.5`, scores 0.9 and 0.6 — keeps only the 0.9 box. -/
theorem nms_two_boxes_keeps_higher_witness :
    ((9 : ℚ)/10 ≠ 6/10) ∧ (1/2 : ℚ) < ovr ⟨0,0,10,10⟩ ⟨0,0,10,8⟩ ∧
      nms_boxes [⟨0,0,10,10⟩, ⟨0,0,10,8⟩] [9/10, 6/10] (1/2) =
        [if (6 : ℚ)/10 < 9/10 then 0 else 1] :=
  ⟨by norm_num, by norm_num [ovr, interB, areaB, eps],
    nms_two_boxes_keeps_higher _ _ _ _ _ (by norm_num)
      (by norm_num [ovr, interB, areaB, eps])⟩

/-- C4 as stated is false for the exact IoU of the claim: two identical
boxes of edge `1/1000000` have exact IoU `1`, above `nms_thresh = 1/2`, and
their scores differ, yet `nms_boxes` keeps both — the `+0.00001` padding
drives the computed union negative for boxes smaller than the padding, so
the overlap test never fires. -/
theorem nms_two_boxes_exact_iou_counterexample :
    iouExact ⟨0, 0, 1/1000000, 1/1000000⟩ ⟨0, 0, 1/1000000, 1/1000000⟩ =
        1 ∧
      (1/2 : ℚ) < 1 ∧ ((9 : ℚ)/10 ≠ 6/10) ∧
      nms_boxes
        [⟨0, 0, 1/1000000, 1/1000000⟩, ⟨0, 0, 1/1000000, 1/1000000⟩]
        [9/10, 6/10] (1/2) = [0, 1] := by
  refine ⟨?_, by norm_num, by norm_num, ?_⟩
  · norm_num [iouExact, areaB]
  · norm_num [nms_boxes, argsortDesc, argsortAux, insertDesc, nmsLoop, ovr,
      interB, areaB, eps]

/-- C5: per-class non-maximum suppression is idempotent — applying
`nms_boxes` to the boxes and scores it kept keeps all of them, so the kept
box collection is unchanged. -/
theorem nms_suppression_idempotent (bs : List Box) (ss : List ℚ) (t : ℚ) :
    ((nms_boxes ((nms_boxes bs ss t).map (fun i => bs.getD i default))
        ((nms_boxes bs ss t).map (fun i => ss.getD i 0)) t).map
      (fun p => ((nms_boxes bs ss t).map
        (fun i => bs.getD i default)).getD p default)).Perm
      ((nms_boxes bs ss t).map (fun i => bs.getD i default)) := by
  apply nms_keep_all_aux
  · intro p q hp hq hne
    have hP := nmsLoop_pairwise bs t (argsortDesc ss).length (argsortDesc ss)
    have hplen : p < (nms_boxes bs ss t).length := by simpa using hp
    have hqlen : q < (nms_boxes bs ss t).length := by simpa using hq
    have key : ∀ (r : ℕ), r < (nms_boxes bs ss t).length →
        ((nms_boxes bs ss t).map (fun i => bs.getD i default)).getD r default =
          bs.getD ((nms_boxes bs ss t).getD r 0) default := by
      intro r hr
      rw [List.getD_eq_getElem _ _ (by simpa using hr), List.getElem_map,
        List.getD_eq_getElem _ _ hr]
    rw [key p hplen, key q hqlen]
    exact pairwise_getD_of_ne _ hP (fun i j hij => by rwa [ovr_comm]) p q
      hplen hqlen hne
  · simp

/-! Claim C1: the decode formulas of `process`. -/

theorem processRow_getD (netSize g : ℕ) (anchors : List (ℚ × ℚ)) (r : ℕ)
    (cells : List (List RawDet)) :
    ∀ (c0 c : ℕ), c < cells.length →
      (processRow netSize g anchors r c0 cells).getD c [] =
        ((cells.getD c []).zip anchors).map
          (fun ra => processCell netSize g ra.2 r (c0 + c) ra.1) := by
  induction cells with
  | nil => intro c0 c hc; simp at hc
  | cons cell rest ih =>
    intro c0 c hc
    cases c with
    | zero => simp [processRow]
    | succ c =>
      rw [processRow]
      simp only [List.getD_cons_succ]
      rw [ih (c0 + 1) c (by simp at hc; omega),
        show c0 + 1 + c = c0 + (c + 1) from by omega]

theorem processFrom_getD (netSize g : ℕ) (anchors : List (ℚ × ℚ))
    (rows : List (List (List RawDet))) :
    ∀ (r0 r : ℕ), r < rows.length →
      (processFrom netSize g anchors r0 rows).getD r [] =
        processRow netSize g anchors (r0 + r) 0 (rows.getD r []) := by
  induction rows with
  | nil => intro r0 r hr; simp at hr
  | cons row rest ih =>
    intro r0 r hr
    cases r with
    | zero => simp [processFrom]
    | succ r =>
      rw [processFrom]
      simp only [List.getD_cons_succ]
      rw [ih (r0 + 1) r (by simp at hr; omega),
        show r0 + 1 + r = r0 + (r + 1) from by omega]

theorem zipMap_getD {α β γ : Type _} [Inhabited α] [Inhabited β] [Inhabited γ]
    (f : α × β → γ) (as : List α) (bs : List β) (i : ℕ)
    (ha : i < as.length) (hb : i < bs.length) :
    ((as.zip bs).map f).getD i default =
      f (as.getD i default, bs.getD i default) := by
  have hz : i < (as.zip bs).length := by
    rw [List.length_zip]; omega
  rw [List.getD_eq_getElem _ _ (by simpa using hz), List.getElem_map,
    List.getElem_zip, List.getD_eq_getElem _ _ ha, List.getD_eq_getElem _ _ hb]

/-- C1 (amended): the decoded entry of grid cell `(r, c)` and anchor `a` has
center `(raw_xy * 2 - 0.5 + grid_offset) * int(net_size / grid_size)`, size
`(raw_wh * 2)^2 * anchor`, objectness `raw_obj` and class probabilities
`raw_class` — i.e. the claim's formulas with the logistic `sigmoid` replaced
by the identity (the code's `sigmoid` returns its argument unchanged) and
the scale factor truncated to an integer. -/
theorem process_decode_formula (netSize g : ℕ) (anchors : List (ℚ × ℚ))
    (input : List (List (List RawDet))) (r c a : ℕ)
    (hr : r < input.length) (hc : c < (input.getD r []).length)
    (ha : a < ((input.getD r []).getD c []).length)
    (ha2 : a < anchors.length) :
    (((process netSize g anchors input).getD r []).getD c []).getD a default =
      (⟨((((input.getD r []).getD c []).getD a default).x * 2 - 1/2 + (c : ℚ))
          * ((netSize / g : ℕ) : ℚ),
        ((((input.getD r []).getD c []).getD a default).y * 2 - 1/2 + (r : ℚ))
          * ((netSize / g : ℕ) : ℚ),
        ((((input.getD r []).getD c []).getD a default).w * 2) ^ 2
          * (anchors.getD a default).1,
        ((((input.getD r []).getD c []).getD a default).h * 2) ^ 2
          * (anchors.getD a default).2⟩,
       (((input.getD r []).getD c []).getD a default).conf,
       (((input.getD r []).getD c []).getD a default).probs) := by
  rw [process, processFrom_getD netSize g anchors input 0 r hr, Nat.zero_add,
    processRow_getD netSize g anchors r _ 0 c hc, Nat.zero_add,
    zipMap_getD _ _ _ a ha ha2]
  rw [processCell]
  have hsig : ∀ l : List ℚ, l.map sigmoid = l := fun l => List.map_id l
  simp [sigmoid, hsig]

/-- Witness for C1 at a one-cell grid with `net_size = 640` and raw entry
`(1, 2, 3, 4, 5, [6])`. -/
theorem process_decode_formula_witness :
    (((process 640 1 [((10 : ℚ), (13 : ℚ))]
        [[[⟨1, 2, 3, 4, 5, [6]⟩]]]).getD 0 []).getD 0 []).getD 0 default =
      (⟨((((([[[⟨1, 2, 3, 4, 5, [6]⟩]]] :
              List (List (List RawDet))).getD 0 []).getD 0 []).getD 0
            default).x * 2 - 1/2 + ((0 : ℕ) : ℚ)) * (((640 / 1 : ℕ)) : ℚ),
        ((((([[[⟨1, 2, 3, 4, 5, [6]⟩]]] :
              List (List (List RawDet))).getD 0 []).getD 0 []).getD 0
            default).y * 2 - 1/2 + ((0 : ℕ) : ℚ)) * (((640 / 1 : ℕ)) : ℚ),
        ((((([[[⟨1, 2, 3, 4, 5, [6]⟩]]] :
              List (List (List RawDet))).getD 0 []).getD 0 []).getD 0
            default).w * 2) ^ 2 * (([((10 : ℚ), (13 : ℚ))].getD 0 default).1),
        ((((([[[⟨1, 2, 3, 4, 5, [6]⟩]]] :
              List (List (List RawDet))).getD 0 []).getD 0 []).getD 0
            default).h * 2) ^ 2 * (([((10 : ℚ), (13 : ℚ))].getD 0 default).2)⟩,
       ((((([[[⟨1, 2, 3, 4, 5, [6]⟩]]] :
             List (List (List RawDet))).getD 0 []).getD 0 []).getD 0
           default).conf),
       ((((([[[⟨1, 2, 3, 4, 5, [6]⟩]]] :
             List (List (List RawDet))).getD 0 []).getD 0 []).getD 0
           default).probs)) :=
  process_decode_formula 640 1 [((10 : ℚ), (13 : ℚ))] [[[⟨1, 2, 3, 4, 5, [6]⟩]]]
    0 0 0 (by decide) (by decide) (by decide) (by decide)

/-- C1 as stated is false: at the all-zero raw entry the code's decoded
objectness is `0`, while the logistic of a zero raw objectness is `1/2`. -/
theorem process_decode_logistic_counterexample :
    (((((process 640 1 [((10 : ℚ), (13 : ℚ))]
        [[[⟨0, 0, 0, 0, 0, []⟩]]]).getD 0 []).getD 0 []).getD 0
          default).2.1 : ℝ) ≠ logistic 0 := by
  have h1 : ((((process 640 1 [((10 : ℚ), (13 : ℚ))]
      [[[⟨0, 0, 0, 0, 0, []⟩]]]).getD 0 []).getD 0 []).getD 0
        default).2.1 = 0 := rfl
  rw [h1, logistic, neg_zero, Real.exp_zero]
  norm_num

/-! Claim C2: the thresholds guaranteed by `filter_boxes`. -/

/-- C2 (amended): every entry returned by `filter_boxes` comes from an input
entry whose objectness and maximum class probability are each at least
`obj_thresh`; its returned score is their product — which may fall below
`obj_thresh`, but never below `obj_thresh^2` when the threshold is
nonnegative. -/
theorem filter_boxes_thresholds (t : ℚ) (entries : List (CBox × ℚ × List ℚ))
    (d : CBox × ℕ × ℚ) (hd : d ∈ filter_boxes t entries) :
    ∃ e ∈ entries, d = (e.1, argmaxD e.2.2, maxD e.2.2 * e.2.1) ∧
      t ≤ e.2.1 ∧ t ≤ maxD e.2.2 ∧ (0 ≤ t → t * t ≤ d.2.2) := by
  rw [filter_boxes] at hd
  rcases List.mem_map.mp hd with ⟨e, he, hde⟩
  have he2 := List.mem_of_mem_filter he
  have hcond2 : t ≤ maxD e.2.2 := by simpa using List.of_mem_filter he
  have hcond1 : t ≤ e.2.1 := by simpa using List.of_mem_filter he2
  refine ⟨e, List.mem_of_mem_filter he2, hde.symm, hcond1, hcond2, ?_⟩
  intro ht
  rw [← hde]
  exact mul_le_mul hcond2 hcond1 ht (le_trans ht hcond2)

/-- Witness for C2 (amended) at threshold `1/4` and a single entry with
objectness `1` and class probabilities `[1]`. -/
theorem filter_boxes_thresholds_witness :
    ∃ e ∈ [((⟨0, 0, 1, 1⟩ : CBox), (1 : ℚ), [(1 : ℚ)])],
      ((⟨0, 0, 1, 1⟩ : CBox), (0 : ℕ), (1 : ℚ)) =
        (e.1, argmaxD e.2.2, maxD e.2.2 * e.2.1) ∧
      (1/4 : ℚ) ≤ e.2.1 ∧ (1/4 : ℚ) ≤ maxD e.2.2 ∧
      (0 ≤ (1/4 : ℚ) →
        (1/4 : ℚ) * (1/4) ≤ ((⟨0, 0, 1, 1⟩ : CBox), (0 : ℕ), (1 : ℚ)).2.2) :=
  filter_boxes_thresholds (1/4) [(⟨0, 0, 1, 1⟩, 1, [1])]
    (⟨0, 0, 1, 1⟩, 0, 1)
    (by norm_num [filter_boxes, maxD, argmaxD])

/-- C2 as stated is false: with `obj_thresh = 1/2`, an entry with
objectness `1/2` and single class probability `1/2` passes both filters,
yet its returned score `1/4` — its objectness times its maximum class
probability — is strictly below the threshold. -/
theorem filter_boxes_product_counterexample :
    filter_boxes (1/2) [(⟨0, 0, 1, 1⟩, 1/2, [1/2])] =
      [(⟨0, 0, 1, 1⟩, 0, 1/4)] ∧ (1/4 : ℚ) < 1/2 := by
  constructor
  · norm_num [filter_boxes, maxD, argmaxD]
  · norm_num

/-! Membership lemmas tracing pipeline entries back to raw grid entries. -/

theorem processRow_mem (netSize g : ℕ) (anchors : List (ℚ × ℚ)) (r : ℕ)
    (cells : List (List RawDet)) :
    ∀ (c0 : ℕ) (e : CBox × ℚ × List ℚ),
      e ∈ (processRow netSize g anchors r c0 cells).flatten →
      ∃ cell ∈ cells, ∃ raw ∈ cell, ∃ anchor c,
        e = processCell netSize g anchor r c raw := by
  induction cells with
  | nil => intro c0 e he; simp [processRow] at he
  | cons cell rest ih =>
    intro c0 e he
    rw [processRow, List.flatten_cons] at he
    rcases List.mem_append.mp he with h | h
    · rcases List.mem_map.mp h with ⟨ra, hra, hre⟩
      exact ⟨cell, List.mem_cons_self _ _, ra.1, (List.of_mem_zip hra).1, ra.2,
        c0, hre.symm⟩
    · rcases ih (c0 + 1) e h with ⟨cell2, hc2, raw, hraw, anchor, c, he2⟩
      exact ⟨cell2, List.mem_cons_of_mem _ hc2, raw, hraw, anchor, c, he2⟩

theorem processFrom_mem (netSize g : ℕ) (anchors : List (ℚ × ℚ))
    (rows : List (List (List RawDet))) :
    ∀ (r0 : ℕ) (e : CBox × ℚ × List ℚ),
      e ∈ (processFrom netSize g anchors r0 rows).flatten.flatten →
      ∃ row ∈ rows, ∃ cell ∈ row, ∃ raw ∈ cell, ∃ anchor r c,
        e = processCell netSize g anchor r c raw := by
  induction rows with
  | nil => intro r0 e he; simp [processFrom] at he
  | cons row rest ih =>
    intro r0 e he
    rw [processFrom, List.flatten_cons, List.flatten_append] at he
    rcases List.mem_append.mp he with h | h
    · rcases processRow_mem netSize g anchors r0 row 0 e h with
        ⟨cell, hcell, raw, hraw, anchor, c, he2⟩
      exact ⟨row, List.mem_cons_self _ _, cell, hcell, raw, hraw, anchor, r0,
        c, he2⟩
    · rcases ih (r0 + 1) e h with ⟨row2, hrow2, cell, hcell, raw, hraw,
        anchor, r, c, he2⟩
      exact ⟨row2, List.mem_cons_of_mem _ hrow2, cell, hcell, raw, hraw,
        anchor, r, c, he2⟩

theorem filterScale_trace (netSize : ℕ) (t : ℚ) (mask : List ℕ)
    (input : List (List (List RawDet))) (d : CBox × ℕ × ℚ)
    (hd : d ∈ filterScale netSize t mask input) :
    ∃ raw, (∃ row ∈ input, ∃ cell ∈ row, raw ∈ cell) ∧
      d.2.2 = maxD raw.probs * raw.conf ∧ t ≤ raw.conf ∧
      t ≤ maxD raw.probs := by
  rw [filterScale] at hd
  rcases filter_boxes_thresholds _ _ _ hd with ⟨e, he, hde, h1, h2, _⟩
  rw [process] at he
  rcases processFrom_mem _ _ _ _ _ _ he with
    ⟨row, hrow, cell, hcell, raw, hraw, anchor, r, c, hePC⟩
  have hconf : e.2.1 = raw.conf := by rw [hePC]; rfl
  have hprobs : e.2.2 = raw.probs := by
    rw [hePC, processCell]
    exact List.map_id raw.probs
  refine ⟨raw, ⟨row, hrow, cell, hcell, hraw⟩, ?_, ?_, ?_⟩
  · rw [hde]
    simp only [hconf, hprobs]
  · rwa [hconf] at h1
  · rwa [hprobs] at h2

theorem fancyIdx_subset {α : Type _} [Inhabited α] (l : List α)
    (inds : List ℕ) (hinds : ∀ i ∈ inds, i < l.length) :
    ∀ x ∈ fancyIdx l inds, x ∈ l := by
  intro x hx
  rcases List.mem_map.mp hx with ⟨i, hi, hxi⟩
  rw [← hxi, List.getD_eq_getElem _ _ (hinds i hi)]
  exact List.getElem_mem _

theorem nms_boxes_mem_lt (bs : List Box) (ss : List ℚ) (t : ℚ) :
    ∀ i ∈ nms_boxes bs ss t, i < ss.length := by
  intro i hi
  have h2 := nmsLoop_subset bs t (argsortDesc ss).length (argsortDesc ss) i hi
  exact List.mem_range.mp ((argsortDesc_perm ss).mem_iff.mp h2)

theorem groupInds_lt (classes : List ℕ) (cl : ℕ) :
    ∀ i ∈ groupInds classes cl, i < classes.length := by
  intro i hi
  exact List.mem_range.mp (List.mem_of_mem_filter hi)

/-! Claim C7: score factorization of pipeline detections. -/

/-- C7 (amended): every score produced by `yolov5_post_process` is the
product of the source grid entry's objectness and its maximum class
probability, each of which is at least `obj_thresh`; because the code's
`sigmoid` is the identity, neither factor is forced into `[0, 1]` — they
lie in `[0, 1]` only when the raw tensor values do. -/
theorem yolov5_scores_factorization (netSize : ℕ) (t nmsT : ℚ)
    (inputs : List (List (List (List RawDet))))
    (b : List Box) (c : List ℕ) (s : List ℚ) (x : ℚ)
    (hres : yolov5_post_process netSize t nmsT inputs = some (b, c, s))
    (hx : x ∈ s) :
    ∃ raw, rawInInputs raw inputs ∧ x = maxD raw.probs * raw.conf ∧
      t ≤ raw.conf ∧ t ≤ maxD raw.probs := by
  rw [yolov5_post_process] at hres
  split at hres
  · simp at hres
  · have hs : s = ((groupsAll netSize t nmsT inputs).map
        (fun gr => gr.2.2)).flatten := by
      have := (Option.some.injEq _ _).mp hres
      exact (congrArg (fun z => z.2.2) this).symm
    rw [hs] at hx
    rcases List.mem_flatten.mp hx with ⟨part, hpart, hxpart⟩
    rcases List.mem_map.mp hpart with ⟨gr, hgr, hgrpart⟩
    rcases List.mem_map.mp hgr with ⟨cl, hcl, hclgr⟩
    rw [← hclgr] at hgrpart
    rw [← hgrpart] at hxpart
    have hx2 : x ∈ fancyIdx (scoresAll netSize t inputs)
        (groupInds (classesAll netSize t inputs) cl) := by
      refine fancyIdx_subset _ _ ?_ x hxpart
      intro i hi
      have := nms_boxes_mem_lt _ _ _ i hi
      simpa [fancyIdx] using this
    have hx3 : x ∈ scoresAll netSize t inputs := by
      refine fancyIdx_subset _ _ ?_ x hx2
      intro i hi
      have h1 := groupInds_lt _ _ i hi
      simpa [scoresAll, classesAll] using h1
    rw [scoresAll] at hx3
    rcases List.mem_map.mp hx3 with ⟨d, hd, hxd⟩
    rw [filteredAll] at hd
    rcases List.mem_flatten.mp hd with ⟨scalePart, hscalePart, hdscale⟩
    rcases List.mem_map.mp hscalePart with ⟨p, hp, hpscale⟩
    rw [← hpscale] at hdscale
    rcases filterScale_trace _ _ _ _ _ hdscale with
      ⟨raw, ⟨row, hrow, cell, hcell, hraw⟩, hfact, hc1, hc2⟩
    exact ⟨raw, ⟨p.1, (List.of_mem_zip hp).1, row, hrow, cell, hcell, hraw⟩,
      hxd ▸ hfact, hc1, hc2⟩

theorem yolov5_cex_eval :
    yolov5_post_process 640 (1/4) (1/2)
        [[[[⟨0, 0, 0, 0, 2, [2]⟩]]], [], []] =
      some ([⟨-320, -320, -320, -320⟩], [0], [4]) := by
  have h1 : filteredAll 640 (1/4) [[[[⟨0, 0, 0, 0, 2, [2]⟩]]], [], []] =
      [(⟨-320, -320, 0, 0⟩, 0, 4)] := by
    norm_num [filteredAll, filterScale, filter_boxes, process, processFrom,
      processRow, processCell, sigmoid, maxD, argmaxD, masksAll, anchorsAll]
  have h2 : groupsAll 640 (1/4) (1/2) [[[[⟨0, 0, 0, 0, 2, [2]⟩]]], [], []] =
      [([⟨-320, -320, -320, -320⟩], [0], [4])] := by
    norm_num [groupsAll, classesAll, boxesAll, scoresAll, h1, nmsGroup,
      groupKeep, groupInds, fancyIdx, nms_boxes, argsortDesc, argsortAux,
      insertDesc, nmsLoop, xywh2xyxy,
      show ([0] : List ℕ).dedup = [0] from by decide]
  rw [yolov5_post_process, h2]
  norm_num

/-- C7 as stated is false: the pipeline emits a Detection with score `4`,
which cannot be written as a product of two factors that each lie in
`[0, 1]` (the code's `sigmoid` is the identity, so nothing clamps the raw
objectness and class values). -/
theorem yolov5_score_range_counterexample :
    (yolov5_post_process 640 (1/4) (1/2)
        [[[[⟨0, 0, 0, 0, 2, [2]⟩]]], [], []]).map (fun r => r.2.2) =
      some [4] ∧
      ∀ a b : ℚ, 0 ≤ a → a ≤ 1 → 0 ≤ b → b ≤ 1 → a * b ≠ 4 := by
  constructor
  · rw [yolov5_cex_eval]
    rfl
  · intro a b ha ha1 hb hb1 hab
    nlinarith

/-- Witness for C7 (amended) at the concrete one-detection input. -/
theorem yolov5_scores_factorization_witness :
    ∃ raw, rawInInputs raw [[[[⟨0, 0, 0, 0, 2, [2]⟩]]], [], []] ∧
      (4 : ℚ) = maxD raw.probs * raw.conf ∧ (1/4 : ℚ) ≤ raw.conf ∧
      (1/4 : ℚ) ≤ maxD raw.probs :=
  yolov5_scores_factorization 640 (1/4) (1/2)
    [[[[⟨0, 0, 0, 0, 2, [2]⟩]]], [], []]
    [⟨-320, -320, -320, -320⟩] [0] [4] 4 yolov5_cex_eval (by norm_num)

/-! Claim C10: shape of the pipeline result. -/

theorem nms_boxes_ne_nil (bs : List Box) (ss : List ℚ) (hss : ss ≠ [])
    (t : ℚ) : nms_boxes bs ss t ≠ [] := by
  have hlen : (argsortDesc ss).length = ss.length :=
    (argsortDesc_perm ss).length_eq.trans (List.length_range _)
  rw [nms_boxes]
  cases hl : argsortDesc ss with
  | nil =>
    exfalso
    apply hss
    apply List.length_eq_zero.mp
    rw [← hlen, hl]
    rfl
  | cons i rest =>
    rw [List.length_cons, nmsLoop]
    exact List.cons_ne_nil _ _

theorem groupInds_ne_nil (classes : List ℕ) (cl : ℕ) (hcl : cl ∈ classes) :
    groupInds classes cl ≠ [] := by
  rcases List.getElem_of_mem hcl with ⟨j, hj, hcj⟩
  intro hnil
  have hjmem : j ∈ groupInds classes cl := by
    rw [groupInds]
    refine List.mem_filter.mpr ⟨List.mem_range.mpr hj, ?_⟩
    simp only [decide_eq_true_eq]
    rw [List.getD_eq_getElem _ _ hj]
    exact hcj
  rw [hnil] at hjmem
  exact List.not_mem_nil _ hjmem

theorem nmsGroup_length_box (boxes : List Box) (classes : List ℕ)
    (scores : List ℚ) (nmsT : ℚ) (cl : ℕ) :
    (nmsGroup boxes classes scores nmsT cl).1.length =
      (nmsGroup boxes classes scores nmsT cl).2.2.length := by
  simp [nmsGroup, fancyIdx]

theorem nmsGroup_length_class (boxes : List Box) (classes : List ℕ)
    (scores : List ℚ) (nmsT : ℚ) (cl : ℕ) :
    (nmsGroup boxes classes scores nmsT cl).2.1.length =
      (nmsGroup boxes classes scores nmsT cl).2.2.length := by
  simp [nmsGroup, fancyIdx]

/-- C10: `yolov5_post_process` returns the absent result (`none`, modelling
the `None, None, None` triple) exactly when filtering leaves no entry
across all scales; otherwise it returns three arrays of equal, strictly
positive length. -/
theorem yolov5_output_shape (netSize : ℕ) (t nmsT : ℚ)
    (inputs : List (List (List (List RawDet)))) :
    (yolov5_post_process netSize t nmsT inputs = none ↔
      filteredAll netSize t inputs = []) ∧
    (∀ b c s, yolov5_post_process netSize t nmsT inputs = some (b, c, s) →
      b.length = s.length ∧ c.length = s.length ∧ 0 < s.length) := by
  have hclasses : classesAll netSize t inputs = [] ↔
      filteredAll netSize t inputs = [] := by
    rw [classesAll]; exact List.map_eq_nil_iff
  have hgroups : groupsAll netSize t nmsT inputs = [] ↔
      filteredAll netSize t inputs = [] := by
    rw [groupsAll, List.map_eq_nil_iff, List.dedup_eq_nil]
    exact hclasses
  constructor
  · rw [yolov5_post_process]
    split
    · rename_i h
      rw [List.isEmpty_iff] at h
      simp [hgroups.mp h]
    · rename_i h
      rw [List.isEmpty_iff] at h
      constructor
      · intro hsome; exact absurd hsome (by simp)
      · intro hfil; exact absurd (hgroups.mpr hfil) h
  · intro b c s hres
    rw [yolov5_post_process] at hres
    split at hres
    · simp at hres
    · rename_i hne
      rw [List.isEmpty_iff] at hne
      have h := Option.some.inj hres
      have hb : b = ((groupsAll netSize t nmsT inputs).map
          (fun gr => gr.1)).flatten := (congrArg Prod.fst h).symm
      have hcs := congrArg Prod.snd h
      have hc : c = ((groupsAll netSize t nmsT inputs).map
          (fun gr => gr.2.1)).flatten := (congrArg Prod.fst hcs).symm
      have hs : s = ((groupsAll netSize t nmsT inputs).map
          (fun gr => gr.2.2)).flatten := (congrArg Prod.snd hcs).symm
      have hlen_eq : ∀ gr ∈ groupsAll netSize t nmsT inputs,
          gr.1.length = gr.2.2.length ∧ gr.2.1.length = gr.2.2.length := by
        intro gr hgr
        rcases List.mem_map.mp hgr with ⟨cl, hcl, hclgr⟩
        rw [← hclgr]
        exact ⟨nmsGroup_length_box _ _ _ _ _, nmsGroup_length_class _ _ _ _ _⟩
      refine ⟨?_, ?_, ?_⟩
      · rw [hb, hs, List.length_flatten, List.length_flatten, List.map_map,
          List.map_map]
        congr 1
        refine List.map_congr_left ?_
        intro gr hgr
        exact (hlen_eq gr hgr).1
      · rw [hc, hs, List.length_flatten, List.length_flatten, List.map_map,
          List.map_map]
        congr 1
        refine List.map_congr_left ?_
        intro gr hgr
        exact (hlen_eq gr hgr).2
      · have hdne : (classesAll netSize t inputs).dedup ≠ [] := by
          intro hdnil
          exact hne (by rw [groupsAll, hdnil]; rfl)
        rcases List.exists_cons_of_ne_nil hdne with ⟨cl, restD, hded⟩
        have hclmem : cl ∈ classesAll netSize t inputs := by
          apply List.mem_dedup.mp
          rw [hded]
          exact List.mem_cons_self _ _
        have hindsne := groupInds_ne_nil _ _ hclmem
        have hfancyne : fancyIdx (scoresAll netSize t inputs)
            (groupInds (classesAll netSize t inputs) cl) ≠ [] := by
          rw [fancyIdx]
          intro hmapnil
          exact hindsne (List.map_eq_nil_iff.mp hmapnil)
        have hkeepne : groupKeep (boxesAll netSize t inputs)
            (classesAll netSize t inputs) (scoresAll netSize t inputs)
            nmsT cl ≠ [] := by
          rw [groupKeep]
          exact nms_boxes_ne_nil _ _ hfancyne _
        rw [hs, groupsAll, hded, List.map_cons, List.map_cons,
          List.flatten_cons, List.length_append]
        have hpos : 0 < (nmsGroup (boxesAll netSize t inputs)
            (classesAll netSize t inputs) (scoresAll netSize t inputs)
            nmsT cl).2.2.length := by
          rw [nmsGroup]
          simp only [fancyIdx, List.length_map]
          exact List.length_pos.mpr hkeepne
        omega

/-- Witness for C10 at the concrete one-detection input. -/
theorem yolov5_output_shape_witness :
    ([(⟨-320, -320, -320, -320⟩ : Box)]).length = ([(4 : ℚ)]).length ∧
      ([(0 : ℕ)]).length = ([(4 : ℚ)]).length ∧ 0 < ([(4 : ℚ)]).length :=
  (yolov5_output_shape 640 (1/4) (1/2)
      [[[[⟨0, 0, 0, 0, 2, [2]⟩]]], [], []]).2
    [⟨-320, -320, -320, -320⟩] [0] [4] yolov5_cex_eval

/-! Claim C6: the no-detections path. -/

theorem filteredAll_nil_of_low_conf (netSize : ℕ) (t : ℚ)
    (inputs : List (List (List (List RawDet))))
    (hconf : ∀ grid ∈ inputs, ∀ row ∈ grid, ∀ cell ∈ row, ∀ raw ∈ cell,
      raw.conf < t) :
    filteredAll netSize t inputs = [] := by
  rw [filteredAll, List.flatten_eq_nil_iff]
  intro part hpart
  rcases List.mem_map.mp hpart with ⟨p, hp, hppart⟩
  rw [← hppart, filterScale, filter_boxes]
  have hstage1 : ((process netSize p.1.length
      (p.2.map (fun i => anchorsAll.getD i (0, 0)))
        p.1).flatten.flatten).filter (fun e => decide (t ≤ e.2.1)) = [] := by
    rw [List.filter_eq_nil_iff]
    intro e he
    rw [process] at he
    rcases processFrom_mem _ _ _ _ _ _ he with
      ⟨row, hrow, cell, hcell, raw, hraw, anchor, r, c, hePC⟩
    have hc1 : e.2.1 = raw.conf := by rw [hePC]; rfl
    simp only [decide_eq_true_eq, hc1, not_le]
    exact hconf p.1 (List.of_mem_zip hp).1 row hrow cell hcell raw hraw
  rw [hstage1]
  rfl

/-- C6: when filtering leaves nothing (so no class group survives — for
instance when no grid cell's objectness reaches `obj_thresh`), the decoder
reports the explicit absent result `none` (the `None, None, None` triple) —
never empty or partially-formed arrays — and `post_yolov5` passes the frame
on untouched with `dets = None`: the drawing collaborator is not applied. -/
theorem post_yolov5_no_detections {Frame Dets : Type}
    (draw : Frame → List Box → List ℚ → List ℕ → Frame)
    (format_dets : List Box → List ℕ → List ℚ → Dets)
    (netSize : ℕ) (t nmsT : ℚ) (inputs : List (List (List (List RawDet))))
    (frame : Frame) (fuel : ℕ) (hfuel : 1 ≤ fuel) :
    ((∀ grid ∈ inputs, ∀ row ∈ grid, ∀ cell ∈ row, ∀ raw ∈ cell,
        raw.conf < t) → filteredAll netSize t inputs = []) ∧
    (filteredAll netSize t inputs = [] →
      yolov5_post_process netSize t nmsT inputs = none ∧
      post_yolov5 draw format_dets netSize t nmsT inputs frame fuel =
        some (frame, none)) := by
  refine ⟨filteredAll_nil_of_low_conf netSize t inputs, ?_⟩
  intro hnil
  have hnone : yolov5_post_process netSize t nmsT inputs = none := by
    rw [yolov5_post_process]
    have hg : groupsAll netSize t nmsT inputs = [] := by
      rw [groupsAll, classesAll, hnil]
      rfl
    rw [hg]
    rfl
  refine ⟨hnone, ?_⟩
  obtain ⟨n, rfl⟩ : ∃ n, fuel = n + 1 := ⟨fuel - 1, by omega⟩
  rw [post_yolov5, whileTrue]
  simp [post_yolov5_straight, hnone]

/-- Witness for C6: a single zero-confidence cell, threshold `1/4`, and a
drawing collaborator that would visibly change the frame if applied. -/
theorem post_yolov5_no_detections_witness :
    yolov5_post_process 640 (1/4) (1/2) [[[[⟨0, 0, 0, 0, 0, [0]⟩]]]] =
        none ∧
      post_yolov5 (fun (f : ℕ) (_ : List Box) (_ : List ℚ) (_ : List ℕ) =>
          f + 1) (fun (_ : List Box) (_ : List ℕ) (_ : List ℚ) => (0 : ℕ))
        640 (1/4) (1/2) [[[[⟨0, 0, 0, 0, 0, [0]⟩]]]] 7 1 =
        some (7, none) :=
  (post_yolov5_no_detections
      (fun (f : ℕ) (_ : List Box) (_ : List ℚ) (_ : List ℕ) => f + 1)
      (fun (_ : List Box) (_ : List ℕ) (_ : List ℚ) => (0 : ℕ))
      640 (1/4) (1/2) [[[[⟨0, 0, 0, 0, 0, [0]⟩]]]] 7 1 (le_refl 1)).2
    ((post_yolov5_no_detections
        (fun (f : ℕ) (_ : List Box) (_ : List ℚ) (_ : List ℕ) => f + 1)
        (fun (_ : List Box) (_ : List ℕ) (_ : List ℚ) => (0 : ℕ))
        640 (1/4) (1/2) [[[[⟨0, 0, 0, 0, 0, [0]⟩]]]] 7 1 (le_refl 1)).1
      (by simp only [List.forall_mem_singleton]; norm_num))

/-! Claim C9: the `while True:` scaffolding has no behavioural effect. -/

/-- C9: each entry point's loop returns on its first iteration: for any
fuel admitting at least one iteration, `post_yolov5`, `post_unet` and
`post_resnet` each return exactly the value of the straight-line function
obtained by deleting the loop. -/
theorem entry_loops_return_first_iteration {Frame Dets RFrame Img : Type}
    (draw : Frame → List Box → List ℚ → List ℕ → Frame)
    (format_dets : List Box → List ℕ → List ℚ → Dets)
    (netSize : ℕ) (t nmsT : ℚ) (inputs : List (List (List (List RawDet))))
    (frame : Frame) (uout uframe : List (List (List ℚ)))
    (get_crop_by_id : ℤ → Img) (hm : RFrame → List Img → ℝ × ℝ)
    (draw_position : RFrame → ℝ × ℝ → RFrame) (routs : List ℝ)
    (rframe : RFrame) (fuel : ℕ) (hfuel : 1 ≤ fuel) :
    post_yolov5 draw format_dets netSize t nmsT inputs frame fuel =
      some (post_yolov5_straight draw format_dets netSize t nmsT inputs
        frame) ∧
    post_unet uout uframe fuel = some (post_unet_straight uout uframe) ∧
    post_resnet get_crop_by_id hm draw_position routs rframe fuel =
      some (post_resnet_straight get_crop_by_id hm draw_position routs
        rframe) := by
  obtain ⟨n, rfl⟩ : ∃ n, fuel = n + 1 := ⟨fuel - 1, by omega⟩
  exact ⟨rfl, rfl, rfl⟩

/-- Witness for C9 with fuel `1` and concrete collaborators. -/
theorem entry_loops_return_first_iteration_witness :
    post_yolov5 (fun (f : ℕ) (_ : List Box) (_ : List ℚ) (_ : List ℕ) => f)
        (fun (_ : List Box) (_ : List ℕ) (_ : List ℚ) => (0 : ℕ))
        640 (1/4) (1/2) [] 3 1 =
      some (post_yolov5_straight
        (fun (f : ℕ) (_ : List Box) (_ : List ℚ) (_ : List ℕ) => f)
        (fun (_ : List Box) (_ : List ℕ) (_ : List ℚ) => (0 : ℕ))
        640 (1/4) (1/2) [] 3) ∧
    post_unet [] [] 1 = some (post_unet_straight [] []) ∧
    post_resnet (fun z => z) (fun (_ : ℕ) (_ : List ℤ) => ((0 : ℝ), (0 : ℝ)))
        (fun f _ => f) [] 5 1 =
      some (post_resnet_straight (fun z => z)
        (fun (_ : ℕ) (_ : List ℤ) => ((0 : ℝ), (0 : ℝ))) (fun f _ => f)
        [] 5) :=
  entry_loops_return_first_iteration _ _ 640 (1/4) (1/2) [] 3 [] []
    (fun z => z) (fun _ _ => (0, 0)) (fun f _ => f) [] 5 1 (le_refl 1)

/-! Claim C8: the segmentation decode. -/

theorem map_getD' {α β : Type _} (f : α → β) (l : List α) (i : ℕ)
    (da : α) (db : β) (h : i < l.length) :
    (l.map f).getD i db = f (l.getD i da) := by
  rw [List.getD_eq_getElem _ _ (by simpa using h), List.getElem_map,
    List.getD_eq_getElem _ _ h]

theorem zipWith_getD' {α β γ : Type _} (f : α → β → γ) (as : List α)
    (bs : List β) (i : ℕ) (da : α) (db : β) (dc : γ)
    (ha : i < as.length) (hb : i < bs.length) :
    (List.zipWith f as bs).getD i dc = f (as.getD i da) (bs.getD i db) := by
  have hz : i < (List.zipWith f as bs).length := by
    rw [List.length_zipWith]; omega
  rw [List.getD_eq_getElem _ _ hz, List.getElem_zipWith,
    List.getD_eq_getElem _ _ ha, List.getD_eq_getElem _ _ hb]

theorem transposeCHW_row (raw : List (List (List ℚ))) (y : ℕ)
    (hy : y < (raw.headD []).length) :
    (transposeCHW raw).getD y [] =
      (List.range ((raw.headD []).headD []).length).map
        (fun x => raw.map (fun ch => (ch.getD y []).getD x 0)) := by
  rw [transposeCHW, List.getD_eq_getElem _ _ (by simpa using hy),
    List.getElem_map, List.getElem_range]

theorem transposeCHW_pixel (raw : List (List (List ℚ))) (y x : ℕ)
    (hy : y < (raw.headD []).length)
    (hx : x < ((raw.headD []).headD []).length) :
    ((transposeCHW raw).getD y []).getD x [] =
      raw.map (fun ch => (ch.getD y []).getD x 0) := by
  rw [transposeCHW_row raw y hy,
    List.getD_eq_getElem _ _ (by simpa using hx), List.getElem_map,
    List.getElem_range]

theorem get_mask_row (raw : List (List (List ℚ))) (y : ℕ)
    (hy : y < (raw.headD []).length) :
    (get_mask raw).getD y [] =
      (((transposeCHW raw).getD y []).map argmaxD).map
        (fun i => select_class_rgb_values.getD i []) := by
  have hyT : y < (transposeCHW raw).length := by
    rw [transposeCHW]; simpa using hy
  rw [get_mask, colour_code_segmentation, reverse_one_hot,
    map_getD' _ _ y [] [] (by simpa using hyT), map_getD' _ _ y [] [] hyT]

theorem get_mask_pixel (raw : List (List (List ℚ))) (y x : ℕ)
    (hy : y < (raw.headD []).length)
    (hx : x < ((raw.headD []).headD []).length) :
    ((get_mask raw).getD y []).getD x [] =
      select_class_rgb_values.getD
        (argmaxD (raw.map (fun ch => (ch.getD y []).getD x 0))) [] := by
  rw [get_mask_row raw y hy]
  have hrowlen : x < ((transposeCHW raw).getD y []).length := by
    rw [transposeCHW_row raw y hy]; simpa using hx
  rw [map_getD' _ _ x 0 [] (by simpa using hrowlen),
    map_getD' argmaxD _ x [] 0 hrowlen, transposeCHW_pixel raw y x hy hx]

theorem get_mask_length (raw : List (List (List ℚ))) :
    (get_mask raw).length = (raw.headD []).length := by
  simp [get_mask, colour_code_segmentation, reverse_one_hot, transposeCHW]

theorem get_mask_row_length (raw : List (List (List ℚ))) (y : ℕ)
    (hy : y < (raw.headD []).length) :
    ((get_mask raw).getD y []).length =
      ((raw.headD []).headD []).length := by
  rw [get_mask_row raw y hy, List.length_map, List.length_map,
    transposeCHW_row raw y hy, List.length_map, List.length_range]

/-- C8: for any raw `channels × height × width` tensor and frame of
matching spatial extent, each pixel of `post_unet`'s straight-line body is
the `0.7·frame + 0.3·mask` blend, where the mask colour is the fixed RGB
table entry at the argmax over the channel axis of the transposed tensor —
the full per-pixel characterization: no thresholding or suppression
intervenes. -/
theorem post_unet_pixel_formula (raw frame : List (List (List ℚ)))
    (y x : ℕ) (hyF : y < frame.length) (hy : y < (raw.headD []).length)
    (hxF : x < (frame.getD y []).length)
    (hx : x < ((raw.headD []).headD []).length) :
    ((post_unet_straight raw frame).getD y []).getD x [] =
      List.zipWith (fun u v => 7/10 * u + 3/10 * v)
        ((frame.getD y []).getD x [])
        (select_class_rgb_values.getD
          (argmaxD (raw.map (fun ch => (ch.getD y []).getD x 0))) []) := by
  have h2 : y < (get_mask raw).length := by rw [get_mask_length]; exact hy
  have h4 : x < ((get_mask raw).getD y []).length := by
    rw [get_mask_row_length raw y hy]; exact hx
  rw [post_unet_straight, addWeighted,
    zipWith_getD' _ _ _ y [] [] [] hyF h2,
    zipWith_getD' _ _ _ x [] [] [] hxF h4, get_mask_pixel raw y x hy hx]

/-- Witness for C8: a 2-channel 1-by-1 tensor whose second channel wins the
argmax, blended onto a single-pixel frame. -/
theorem post_unet_pixel_formula_witness :
    ((post_unet_straight [[[1]], [[2]]] [[[10, 20, 30]]]).getD 0 []).getD 0
        [] =
      List.zipWith (fun u v => 7/10 * u + 3/10 * v)
        ((([[[(10 : ℚ), 20, 30]]] : List (List (List ℚ))).getD 0 []).getD 0
          [])
        (select_class_rgb_values.getD
          (argmaxD (([[[(1 : ℚ)]], [[2]]] :
            List (List (List ℚ))).map (fun ch => (ch.getD 0 []).getD 0 0)))
          []) :=
  post_unet_pixel_formula [[[1]], [[2]]] [[[10, 20, 30]]] 0 0 (by decide)
    (by decide) (by decide) (by decide)

/-! Claim C3: the classification-and-retrieval decode. -/

theorem insertDescR_mem (x : ℝ) (l : List ℝ) :
    ∀ z ∈ insertDescR x l, z = x ∨ z ∈ l := by
  induction l with
  | nil => intro z hz; simp [insertDescR] at hz; exact Or.inl hz
  | cons y rest ih =>
    intro z hz
    rw [insertDescR] at hz
    split at hz
    · rcases List.mem_cons.mp hz with h | h
      · exact Or.inl h
      · exact Or.inr h
    · rcases List.mem_cons.mp hz with h | h
      · exact Or.inr (h ▸ List.mem_cons_self _ _)
      · rcases ih z h with h2 | h2
        · exact Or.inl h2
        · exact Or.inr (List.mem_cons_of_mem _ h2)

theorem insertDescR_length (x : ℝ) (l : List ℝ) :
    (insertDescR x l).length = l.length + 1 := by
  induction l with
  | nil => rfl
  | cons y rest ih =>
    rw [insertDescR]
    split
    · rfl
    · rw [List.length_cons, ih, List.length_cons]

theorem sortDescR_mem (l : List ℝ) : ∀ z ∈ sortDescR l, z ∈ l := by
  induction l with
  | nil => intro z hz; simp [sortDescR] at hz
  | cons y rest ih =>
    intro z hz
    rw [sortDescR, List.foldr_cons] at hz
    rcases insertDescR_mem y _ z hz with h | h
    · exact h ▸ List.mem_cons_self _ _
    · exact List.mem_cons_of_mem _ (ih z h)

theorem sortDescR_length (l : List ℝ) : (sortDescR l).length = l.length := by
  induction l with
  | nil => rfl
  | cons y rest ih =>
    rw [sortDescR, List.foldr_cons, insertDescR_length]
    rw [sortDescR] at ih
    rw [ih, List.length_cons]

theorem softmax_mem_pos (l : List ℝ) (hl : l ≠ []) :
    ∀ z ∈ softmax l, 0 < z := by
  intro z hz
  rcases List.mem_map.mp hz with ⟨v, hv, hvz⟩
  have hsum : 0 < (l.map Real.exp).sum := by
    apply List.sum_pos
    · intro q hq
      rcases List.mem_map.mp hq with ⟨w, hw, hwq⟩
      exact hwq ▸ Real.exp_pos w
    · simpa using hl
  exact hvz ▸ div_pos (Real.exp_pos v) hsum

theorem softmax_mem_lt_one (l : List ℝ) (hlen : 2 ≤ l.length) :
    ∀ z ∈ softmax l, z < 1 := by
  intro z hz
  rcases List.mem_map.mp hz with ⟨v, hv, hvz⟩
  have hperm : l.Perm (v :: l.erase v) := List.perm_cons_erase hv
  have hsum : (l.map Real.exp).sum =
      Real.exp v + ((l.erase v).map Real.exp).sum := by
    rw [(hperm.map Real.exp).sum_eq]
    rfl
  have herase_ne : l.erase v ≠ [] := by
    intro hnil
    have := hperm.length_eq
    rw [hnil] at this
    simp at this
    omega
  have hrest : 0 < ((l.erase v).map Real.exp).sum := by
    apply List.sum_pos
    · intro q hq
      rcases List.mem_map.mp hq with ⟨w, hw, hwq⟩
      exact hwq ▸ Real.exp_pos w
    · simpa using herase_ne
  have hlt : Real.exp v < (l.map Real.exp).sum := by
    rw [hsum]; linarith
  have hpos : 0 < (l.map Real.exp).sum :=
    lt_trans (Real.exp_pos v) hlt
  rw [← hvz]
  exact (div_lt_one hpos).mpr hlt

theorem truncInt_zero_of_Ioo (v : ℝ) (h0 : 0 < v) (h1 : v < 1) :
    truncInt v = 0 := by
  rw [truncInt, if_pos h0.le]
  exact Int.floor_eq_zero_iff.mpr ⟨h0.le, h1⟩

/-- C3: at the logits `[2, 1, 0]` the code retrieves the dataset crop with
id `0` for every one of its selected entries — `resnet_post_process` sorts
the softmax probability values and truncates the values themselves to
integers as retrieval keys (`int(cls_id)` on a probability in `(0, 1)` is
`0`), instead of taking the top-10 class indices as the specification says;
here the top-3 class indices would be `0, 1, 2`. -/
theorem resnet_retrieves_by_value_not_index :
    resnet_post_process (fun z => z) [2, 1, 0] = [0, 0, 0] := by
  have hall : ∀ img ∈ resnet_post_process (fun z : ℤ => z) [2, 1, 0],
      img = 0 := by
    intro img himg
    rw [resnet_post_process] at himg
    rcases List.mem_map.mp himg with ⟨v, hv, hvi⟩
    have hvmem : v ∈ softmax [2, 1, 0] :=
      sortDescR_mem _ v (List.mem_of_mem_take hv)
    have h0 : 0 < v := softmax_mem_pos _ (by simp) v hvmem
    have h1 : v < 1 := softmax_mem_lt_one _ (by simp) v hvmem
    rw [← hvi, truncInt_zero_of_Ioo v h0 h1]
  have hlen2 : (resnet_post_process (fun z : ℤ => z) [2, 1, 0]).length = 3 := by
    rw [resnet_post_process, List.length_map, List.length_take,
      sortDescR_length]
    simp [softmax]
  rw [show ([0, 0, 0] : List ℤ) = List.replicate 3 0 from rfl]
  exact List.eq_replicate_iff.mpr ⟨hlen2, hall⟩

end DroneRK
